import Mathlib

/-!
Shallow embedding of `yc_search.py` (HN "Who is hiring?" job search).
Text is modelled as `List Char`; Python functions become Lean functions
with the same names where possible.  Fallible Python code (code that can
raise) is modelled with `Except Unit`.
-/

deriving instance DecidableEq for Except

/-- Whitespace class: models Python `\s` and `str.strip` for the ASCII
whitespace characters (all inputs considered in this development are ASCII). -/
def isWs (c : Char) : Bool :=
  c = ' ' || c = '\t' || c = '\n' || c = '\r' || c = '\x0b' || c = '\x0c'

/-- Models Python `str.lower` on a single ASCII character. -/
def lowerChar (c : Char) : Char :=
  if 'A' ≤ c && c ≤ 'Z' then Char.ofNat (c.toNat + 32) else c

/-- Models Python `str.lower` (ASCII). -/
def lowerStr (l : List Char) : List Char := l.map lowerChar

/-- `leadsWith n h` holds when `n` is an initial segment of `h`. -/
def leadsWith : List Char → List Char → Bool
  | [], _ => true
  | _ :: _, [] => false
  | a :: l, b :: m => a = b && leadsWith l m

/-- Models Python substring containment `needle in hay`. -/
def containsSub (needle : List Char) : List Char → Bool
  | [] => needle.isEmpty
  | c :: rest => leadsWith needle (c :: rest) || containsSub needle rest

/-- Models `re.sub(r"\s+", " ", text)`: every maximal whitespace run becomes a
single space.  The flag records whether the previous character was whitespace
(i.e. whether we are inside a run already replaced). -/
def collapseAux : Bool → List Char → List Char
  | _, [] => []
  | prevWs, c :: rest =>
    if isWs c then
      if prevWs then collapseAux true rest
      else ' ' :: collapseAux true rest
    else c :: collapseAux false rest

def collapseWs (l : List Char) : List Char := collapseAux false l

/-- Removes the trailing whitespace run (Python `str.rstrip` on ASCII). -/
def stripEnd : List Char → List Char
  | [] => []
  | c :: rest =>
    match stripEnd rest with
    | [] => if isWs c then [] else [c]
    | r => c :: r

/-- Models Python `str.strip` (ASCII whitespace). -/
def pyStrip (l : List Char) : List Char := stripEnd (l.dropWhile isWs)

/-- One step of `re.sub(r"<[^>]+>", " ", text)`, structured on a fuel
argument so that the kernel can evaluate it (fuel is always at least the
length of the list, and each step consumes at least one character).  Each
leftmost occurrence of `<`, followed by at least one non-`>` character and
then `>`, is replaced by one space.  A `<` with no later `>`, or immediately
followed by `>`, is kept. -/
def stripTagsF : Nat → List Char → List Char
  | 0, _ => []
  | _ + 1, [] => []
  | fuel + 1, c :: rest =>
    if c = '<' then
      match rest.findIdx? (· = '>') with
      | some k =>
        if k = 0 then c :: stripTagsF fuel rest
        else ' ' :: stripTagsF fuel (rest.drop (k + 1))
      | none => c :: stripTagsF fuel rest
    else c :: stripTagsF fuel rest

/-- Models `re.sub(r"<[^>]+>", " ", text)`. -/
def stripTags (l : List Char) : List Char := stripTagsF l.length l

/-- Models Python `html.unescape` restricted to the five core named
character references (`amp` `lt` `gt` `quot` `apos`, each with trailing
semicolon): a `&` followed by a recognised reference is replaced by the
referenced character; any other text (including an unrecognised `&`) passes
through unchanged.  CPython additionally recognises the ~2200 other HTML5
named references, semicolon-free forms and numeric references; every input
appearing in the theorems below uses only the forms listed here (or no
references at all), where this model agrees exactly with CPython.  Fuel is
always at least the length of the list. -/
def unescapeF : Nat → List Char → List Char
  | 0, _ => []
  | _ + 1, [] => []
  | fuel + 1, c :: rest =>
    if c = '&' then
      if leadsWith ("amp;".toList) rest then '&' :: unescapeF fuel (rest.drop 4)
      else if leadsWith ("lt;".toList) rest then '<' :: unescapeF fuel (rest.drop 3)
      else if leadsWith ("gt;".toList) rest then '>' :: unescapeF fuel (rest.drop 3)
      else if leadsWith ("quot;".toList) rest then '"' :: unescapeF fuel (rest.drop 5)
      else if leadsWith ("apos;".toList) rest then '\'' :: unescapeF fuel (rest.drop 5)
      else '&' :: unescapeF fuel rest
    else c :: unescapeF fuel rest

/-- Models Python `html.unescape` (see `unescapeF`). -/
def unescape (l : List Char) : List Char := unescapeF l.length l

/-- Models `_strip_html` from `yc_search.py`: strip markup tags, decode
entities, collapse whitespace runs to single spaces, trim the ends. -/
def strip_html (text : List Char) : List Char :=
  pyStrip (collapseWs (unescape (stripTags text)))

example : strip_html ("  <p>Hello &amp;   world</p> ".toList) = "Hello & world".toList := by decide
example : strip_html ("&lt;b&gt;".toList) = "<b>".toList := by decide
example : strip_html ("<b>".toList) = [] := by decide
example : lowerStr ("AbC".toList) = "abc".toList := by decide

/-- Models Python `\w` (ASCII): letters, digits and underscore. -/
def isWordChar (c : Char) : Bool :=
  ('a' ≤ c && c ≤ 'z') || ('A' ≤ c && c ≤ 'Z') || ('0' ≤ c && c ≤ '9') || c = '_'

/-- A `\b` word boundary next to a word character: the neighbouring
character (if any) must not be a word character. -/
def boundaryOk : Option Char → Bool
  | none => true
  | some c => !isWordChar c

/-- `re.search(rf"\b{key}\b", t)` succeeds at the position whose remaining
text is `s` and whose preceding character is `prev` (the keys used all start
and end with word characters, so `\b` reduces to these neighbour checks). -/
def wordMatchHere (key s : List Char) (prev : Option Char) : Bool :=
  leadsWith key s && boundaryOk prev &&
    (match s.drop key.length with
     | [] => true
     | c :: _ => !isWordChar c)

def wordSearchFrom (key : List Char) : Option Char → List Char → Bool
  | prev, [] => wordMatchHere key [] prev
  | prev, c :: rest => wordMatchHere key (c :: rest) prev || wordSearchFrom key (some c) rest

/-- Models `re.search(rf"\b{re.escape(key)}\b", t) is not None`. -/
def hasWholeWord (key t : List Char) : Bool := wordSearchFrom key none t

/-- The city keyword table of `_extract_location`, in source order. -/
def cities : List (List Char × List Char) :=
  [("san francisco".toList, "San Francisco".toList),
   ("sf".toList, "San Francisco".toList),
   ("new york".toList, "New York".toList),
   ("nyc".toList, "New York".toList),
   ("seattle".toList, "Seattle".toList),
   ("austin".toList, "Austin".toList),
   ("boston".toList, "Boston".toList),
   ("london".toList, "London".toList),
   ("berlin".toList, "Berlin".toList),
   ("toronto".toList, "Toronto".toList)]

/-- Models `_extract_location` from `yc_search.py`. -/
def extract_location (text : List Char) : List Char :=
  let t := lowerStr text
  if containsSub ("remote".toList) t then "Remote".toList
  else
    match cities.find? (fun kp => hasWholeWord kp.1 t) with
    | some kp => kp.2
    | none => []

/-- Models `_matches_terms` from `yc_search.py`. -/
def matchesTerms (text : List Char) (terms : List (List Char)) : Bool :=
  if terms = [] then true
  else terms.all (fun term => containsSub (lowerStr term) (lowerStr text))

/-- Models `_matches_location` from `yc_search.py` (a `none` or empty
location is the falsy `if not location` case). -/
def matchesLoc (text : List Char) (location : Option (List Char)) : Bool :=
  match location with
  | none => true
  | some l =>
    if l = [] then true
    else
      let loc := lowerStr (pyStrip l)
      let t := lowerStr text
      if loc = "remote".toList then containsSub ("remote".toList) t
      else containsSub loc t

example : extract_location ("We are in Berlin".toList) = "Berlin".toList := by decide
example : extract_location ("Work in SF!".toList) = "San Francisco".toList := by decide
example : extract_location ("transfer dept".toList) = [] := by decide
example : extract_location ("fully remote role".toList) = "Remote".toList := by decide
example : matchesLoc ("office in berlin".toList) (some ("  Berlin ".toList)) = true := by decide
example : matchesTerms ("Python and ML".toList) ["python".toList] = true := by decide

/-- The characters of the separator class `[\-–:–—]` of the first
pattern in `_extract_company_and_title` (hyphen, en dash, colon, em dash). -/
def isDash (c : Char) : Bool :=
  c = '-' || c = '–' || c = ':' || c = '—'

/-- `text.split(". ")[0]`: the characters before the first occurrence of the
two-character separator `". "` (the whole text when it never occurs). -/
def splitDotSpace : List Char → List Char
  | [] => []
  | c :: rest =>
    if c = '.' && leadsWith [' '] rest then []
    else c :: splitDotSpace rest

/-- `seg.splitlines()[0]` for non-empty `seg`, restricted to the `\n`/`\r`
line boundaries (pipeline inputs are whitespace-collapsed and contain
neither). -/
def firstLine (l : List Char) : List Char :=
  l.takeWhile (fun c => c ≠ '\n' && c ≠ '\r')

/-- `text.split(". ")[0].splitlines()[0]` from `_extract_company_and_title`.
When the first split segment is empty (text starts with `". "`),
`"".splitlines()` is `[]` and indexing `[0]` raises `IndexError`; the error
value models that exception. -/
def firstSegment (text : List Char) : Except Unit (List Char) :=
  let seg := splitDotSpace text
  if seg = [] then .error () else .ok (firstLine seg)

/-- Length of the leading whitespace run (the greedy `\s*` of the
anchored patterns). -/
def wsLen (l : List Char) : Nat := (l.takeWhile isWs).length

/-- `re.match(r"^\s*([^\-–:–—]+)[\-–:–—]\s*(.+)$", first)`
with Python's backtracking resolved (no newline occurs in pipeline inputs):
the separator is always the first dash/colon character, at index `k`; the
match fails when there is no such character, when it is the first character,
or when nothing follows it.  Group 1 is the text between the leading
whitespace and the separator (one whitespace character when the separator
directly follows the leading run, by a single backtrack of `\s*`); group 2
is the remainder after the separator and its following whitespace (the last
character alone when that remainder is all whitespace). -/
def ruleDash (first : List Char) : Option (List Char × List Char) :=
  match first.findIdx? isDash with
  | none => none
  | some k =>
    if k = 0 then none
    else
      let r := first.drop (k + 1)
      if r = [] then none
      else
        let w := wsLen first
        let s := if w < k then w else k - 1
        let g1 := (first.drop s).take (k - s)
        let w2 := wsLen r
        let g2 := if w2 = r.length then r.drop (r.length - 1) else r.drop w2
        some ((pyStrip g1).take 80, (pyStrip g2).take 120)

/-- `re.match(r"^\s*([^()]+)\s*\(([^)]+)\)\s*(.*)$", first)` with Python's
backtracking resolved: the opening parenthesis is always the first `(`, at
index `k` (failing when absent or first); the closing one is the first `)`
after it, at offset `j + 1` into the remainder (failing when absent or
immediately adjacent); group 3 is the text after the closing parenthesis and
its following whitespace.  Per the source, the company is stripped group 1
and the title is stripped group 3, or the whole first line when that strip
is empty. -/
def ruleParen (first : List Char) : Option (List Char × List Char) :=
  match first.findIdx? (· = '(') with
  | none => none
  | some k =>
    if k = 0 then none
    else
      match (first.drop (k + 1)).findIdx? (· = ')') with
      | none => none
      | some j =>
        if j = 0 then none
        else
          let w := wsLen first
          let s := if w < k then w else k - 1
          let g1 := (first.drop s).take (k - s)
          let tail := first.drop (k + 1 + j + 1)
          let g3 := tail.drop (wsLen tail)
          let company := (pyStrip g1).take 80
          let r := pyStrip g3
          some (company, (if r = [] then first else r).take 120)

/-- `re.split(r",|\|", first)`: split at every comma or pipe character. -/
def splitSep : List Char → List (List Char)
  | [] => [[]]
  | c :: rest =>
    if c = ',' || c = '|' then [] :: splitSep rest
    else
      match splitSep rest with
      | [] => [[c]]
      | p :: ps => (c :: p) :: ps

/-- The comma/pipe fallback of `_extract_company_and_title`: keep the
stripped non-empty parts; with at least two, the first two are company and
title. -/
def ruleSplit (first : List Char) : Option (List Char × List Char) :=
  let parts := ((splitSep first).map pyStrip).filter (fun p => p ≠ [])
  match parts with
  | p0 :: p1 :: _ => some (p0.take 80, p1.take 120)
  | _ => none

/-- Models `_extract_company_and_title` from `yc_search.py`.  The error
value models the `IndexError` raised on text starting with `". "` (see
`firstSegment`); that exception is not caught anywhere in the source. -/
def extract_company_and_title (text : List Char) :
    Except Unit (List Char × List Char) :=
  if text = [] then .ok ([], [])
  else
    match firstSegment text with
    | .error e => .error e
    | .ok first =>
      match ruleDash first with
      | some ct => .ok ct
      | none =>
        match ruleParen first with
        | some ct => .ok ct
        | none =>
          match ruleSplit first with
          | some ct => .ok ct
          | none => .ok ([], first.take 120)

example : extract_company_and_title ("Acme Corp - Senior Engineer. We are hiring".toList) =
    .ok ("Acme Corp".toList, "Senior Engineer".toList) := by decide
example : extract_company_and_title ("Globex (Remote) Backend roles open".toList) =
    .ok ("Globex".toList, "Backend roles open".toList) := by decide
example : extract_company_and_title ("Initech, Platform Lead".toList) =
    .ok ("Initech".toList, "Platform Lead".toList) := by decide
example : extract_company_and_title ("Hiring engineers now".toList) =
    .ok ([], "Hiring engineers now".toList) := by decide
example : extract_company_and_title (". python dev wanted".toList) = .error () := by decide

/-- Decimal digit to character. -/
def digitCh (d : Nat) : Char :=
  if d = 0 then '0' else if d = 1 then '1' else if d = 2 then '2'
  else if d = 3 then '3' else if d = 4 then '4' else if d = 5 then '5'
  else if d = 6 then '6' else if d = 7 then '7' else if d = 8 then '8'
  else '9'

/-- Digits of `n` in base 10, most significant first; fuel-structured for
kernel evaluation (fuel at least the number of digits suffices; `n + 1` is
always enough). -/
def natToStrCore : Nat → Nat → List Char
  | 0, _ => []
  | _ + 1, 0 => []
  | fuel + 1, n + 1 =>
    natToStrCore fuel ((n + 1) / 10) ++ [digitCh ((n + 1) % 10)]

/-- Models Python `str` on a non-negative integer. -/
def natToStr (n : Nat) : List Char :=
  if n = 0 then "0".toList else natToStrCore (n + 1) n

example : natToStr 5550 = "5550".toList := by decide
example : natToStr 0 = "0".toList := by decide

/-- An item of the thread's `children` array, as used by `yc_search`: the
fields read through `c.get(...)`, each possibly missing.  Identifiers are
modelled as natural numbers (HN item ids); `none` is a missing `id`. -/
structure RawComment where
  typ : Option (List Char)
  id : Option Nat
  text : Option (List Char)
  author : Option (List Char)
deriving DecidableEq

/-- Python `f"hn_{c_id}"` / `"...item?id={c_id}"` formatting of the
identifier: decimal digits, or the literal `None` when the field is
missing. -/
def idRepr : Option Nat → List Char
  | some n => natToStr n
  | none => "None".toList

/-- The `id` field of a result record: `f"hn_{c_id}"`. -/
def postingIdStr (oid : Option Nat) : List Char := "hn_".toList ++ idRepr oid

/-- A job record as assembled by `yc_search` (keys `id, source, title,
company, location, description, url`). -/
structure Posting where
  id : List Char
  source : List Char
  title : List Char
  company : List Char
  location : List Char
  description : List Char
  url : List Char
deriving DecidableEq

/-- The record construction of `yc_search` for a comment `c` whose
normalized text is `text`, after extraction returned `company`/`title`:
the requested location (when truthy) overrides the extracted one, empty
title and company fall back to defaults, the description is the text
truncated to 800 characters. -/
def buildPosting (c : RawComment) (text : List Char)
    (location : Option (List Char)) (company title : List Char) : Posting :=
  let loc0 := extract_location text
  let loc :=
    match location with
    | some l => if l = [] then loc0 else l
    | none => loc0
  let author := c.author.getD []
  { id := postingIdStr c.id
    source := "ycombinator".toList
    title := if title = [] then "Software Engineer".toList else title
    company := if company = [] then (if author = [] then "Unknown".toList else author) else company
    -- `loc or ""` in the source: identical to `loc`, since falsy means `""`.
    location := loc
    description := text.take 800
    url := "https://news.ycombinator.com/item?id=".toList ++ idRepr c.id }

/-- One iteration of the comment loop of `yc_search`: `.ok none` when the
comment is filtered out (missing node, wrong type, empty normalized text,
failed term or location match), `.ok (some p)` when a posting is produced,
`.error` when `_extract_company_and_title` raises. -/
def processComment (oc : Option RawComment) (terms : List (List Char))
    (location : Option (List Char)) : Except Unit (Option Posting) :=
  match oc with
  | none => .ok none
  | some c =>
    if c.typ ≠ some ("comment".toList) then .ok none
    else
      let text := strip_html (c.text.getD [])
      if text = [] then .ok none
      else if matchesTerms text terms = false then .ok none
      else if matchesLoc text location = false then .ok none
      else
        match extract_company_and_title text with
        | .error e => .error e
        | .ok ct => .ok (some (buildPosting c text location ct.1 ct.2))

/-- The comment loop of `yc_search`: `count` postings have been collected so
far; after appending a posting the loop stops as soon as
`len(results) >= limit`. -/
def yc_loop (terms : List (List Char)) (location : Option (List Char))
    (limit : Int) : Nat → List (Option RawComment) → Except Unit (List Posting)
  | _, [] => .ok []
  | count, oc :: rest =>
    match processComment oc terms location with
    | .error e => .error e
    | .ok none => yc_loop terms location limit count rest
    | .ok (some p) =>
      if ((count + 1 : Nat) : Int) ≥ limit then .ok [p]
      else
        match yc_loop terms location limit (count + 1) rest with
        | .error e => .error e
        | .ok ps => .ok (p :: ps)

/-- The comment-processing part of `yc_search` (lines 215–248), applied to a
fetched comment list: filter, extract, assemble, bounded by `limit`. -/
def yc_search_core (comments : List (Option RawComment))
    (terms : List (List Char)) (location : Option (List Char))
    (limit : Int) : Except Unit (List Posting) :=
  yc_loop terms location limit 0 comments

/-- A hit of the Algolia search response as read by
`_latest_who_is_hiring_story_id`: `title` is `h.get("title") or ""`, and
`objectID` is the result of `int(h.get("objectID"))` (`none` when that
parse raises). -/
structure Hit where
  title : List Char
  objectID : Option Nat
deriving DecidableEq

/-- `re.compile(r"ask hn:\s*who is hiring\?", re.IGNORECASE)` matching at
the position whose remaining (lowercased) text is `s`. -/
def hiringPatHere (s : List Char) : Bool :=
  leadsWith ("ask hn:".toList) s &&
    leadsWith ("who is hiring?".toList) ((s.drop 7).dropWhile isWs)

/-- `pat.search` over all start positions. -/
def hiringPatFound : List Char → Bool
  | [] => false
  | c :: rest => hiringPatHere (c :: rest) || hiringPatFound rest

/-- Models `_latest_who_is_hiring_story_id` after the hits list has been
obtained (from either the dated or the fallback endpoint): the first hit
whose title matches the pattern and whose `objectID` parses wins; otherwise
the first hit's `objectID` is a last resort; otherwise no thread. -/
def latest_story_id (hits : List Hit) : Option Nat :=
  match hits.find? (fun h => hiringPatFound (lowerStr h.title) && h.objectID.isSome) with
  | some h => h.objectID
  | none =>
    match hits with
    | [] => none
    | h0 :: _ => h0.objectID

/-- Models `yc_search` given the located thread's hits and the fetched
comment list: no thread means an empty result, otherwise the comment loop
runs. -/
def yc_search_model (hits : List Hit) (comments : List (Option RawComment))
    (terms : List (List Char)) (location : Option (List Char))
    (limit : Int) : Except Unit (List Posting) :=
  match latest_story_id hits with
  | none => .ok []
  | some _ => yc_search_core comments terms location limit

/-- A comment passes the per-comment filters of `yc_search` when the node
is present, of comment type, has non-empty normalized text, and matches the
term and location filters. -/
def passesFilters (oc : Option RawComment) (terms : List (List Char))
    (location : Option (List Char)) : Bool :=
  match oc with
  | none => false
  | some c =>
    c.typ = some ("comment".toList) &&
    !(strip_html (c.text.getD [])).isEmpty &&
    matchesTerms (strip_html (c.text.getD [])) terms &&
    matchesLoc (strip_html (c.text.getD [])) location

/-- A produced posting comes from a present comment and records its id, its
truncated normalized text, a location filter success on the full normalized
text, and the caller's location override. -/
theorem processComment_ok_some {oc : Option RawComment} {terms : List (List Char)}
    {location : Option (List Char)} {p : Posting}
    (h : processComment oc terms location = .ok (some p)) :
    ∃ c ct, oc = some c ∧
      extract_company_and_title (strip_html (c.text.getD [])) = .ok ct ∧
      matchesLoc (strip_html (c.text.getD [])) location = true ∧
      p = buildPosting c (strip_html (c.text.getD [])) location ct.1 ct.2 := by
  match oc with
  | none => simp [processComment] at h
  | some c =>
    refine ⟨c, ?_⟩
    simp only [processComment] at h
    split at h
    · simp at h
    · split at h
      · simp at h
      · split at h
        · simp at h
        · split at h
          · simp at h
          · rename_i hloc
            split at h
            · simp at h
            · rename_i ct heq
              simp only [Except.ok.injEq, Option.some.injEq] at h
              refine ⟨ct, rfl, heq, ?_, h.symm⟩
              revert hloc
              cases matchesLoc (strip_html (c.text.getD [])) location <;> simp

/-- When a filter rejects the comment (or the node is missing), the loop
body produces nothing and raises nothing. -/
theorem processComment_of_not_passes {oc : Option RawComment}
    {terms : List (List Char)} {location : Option (List Char)}
    (h : passesFilters oc terms location = false) :
    processComment oc terms location = .ok none := by
  match oc with
  | none => rfl
  | some c =>
    simp only [processComment]
    split
    · rfl
    · split
      · rfl
      · split
        · rfl
        · split
          · rfl
          · rename_i h1 h2 h3 h4
            exfalso
            have t1 : c.typ = some ("comment".toList) := by
              revert h1
              by_cases ht : c.typ = some ("comment".toList) <;> simp [ht]
            have t2 : (strip_html (c.text.getD [])).isEmpty = false := by
              revert h2
              cases hs : strip_html (c.text.getD []) <;> simp
            have t3 : matchesTerms (strip_html (c.text.getD [])) terms = true := by
              revert h3
              cases matchesTerms (strip_html (c.text.getD [])) terms <;> simp
            have t4 : matchesLoc (strip_html (c.text.getD [])) location = true := by
              revert h4
              cases matchesLoc (strip_html (c.text.getD [])) location <;> simp
            simp [passesFilters, t1, t2, t3, t4] at h

/-- When every filter accepts the comment, the loop body does not produce
`.ok none`: it either produces a posting or raises. -/
theorem processComment_of_passes {oc : Option RawComment}
    {terms : List (List Char)} {location : Option (List Char)}
    (h : passesFilters oc terms location = true) :
    processComment oc terms location ≠ .ok none := by
  match oc with
  | none => simp [passesFilters] at h
  | some c =>
    simp only [passesFilters, Bool.and_eq_true, decide_eq_true_eq] at h
    obtain ⟨⟨⟨htyp, htext⟩, hterms⟩, hloc⟩ := h
    have htext' : strip_html (c.text.getD []) ≠ [] := by
      revert htext
      cases hs : strip_html (c.text.getD []) <;> simp
    simp only [processComment, htyp, htext', hterms, hloc, ne_eq,
      not_true_eq_false, if_false]
    intro hcontra
    cases hext : extract_company_and_title (strip_html (c.text.getD [])) <;>
      rw [hext] at hcontra <;> simp at hcontra
example : latest_story_id [⟨"Other".toList, some 3⟩, ⟨"ask hn:  who is hiring?".toList, some 44⟩] = some 44 := by decide

/-- Every posting of a successful run was produced by `processComment` on
one of the input comments. -/
theorem yc_loop_mem {terms : List (List Char)} {location : Option (List Char)}
    {limit : Int} :
    ∀ (comments : List (Option RawComment)) (count : Nat) (res : List Posting)
      (p : Posting),
      yc_loop terms location limit count comments = .ok res → p ∈ res →
      ∃ oc ∈ comments, processComment oc terms location = .ok (some p) := by
  intro comments
  induction comments with
  | nil =>
    intro count res p h hp
    simp only [yc_loop, Except.ok.injEq] at h
    subst h
    simp at hp
  | cons oc rest ih =>
    intro count res p h hp
    simp only [yc_loop] at h
    split at h
    · simp at h
    · obtain ⟨oc', hmem, hoc'⟩ := ih count res p h hp
      exact ⟨oc', List.mem_cons_of_mem _ hmem, hoc'⟩
    · rename_i q heq
      split at h
      · simp only [Except.ok.injEq] at h
        subst h
        simp only [List.mem_singleton] at hp
        subst hp
        exact ⟨oc, List.mem_cons_self _ _, heq⟩
      · split at h
        · simp at h
        · rename_i ps htail
          simp only [Except.ok.injEq] at h
          subst h
          rcases List.mem_cons.mp hp with hpq | hps
          · subst hpq
            exact ⟨oc, List.mem_cons_self _ _, heq⟩
          · obtain ⟨oc', hmem, hoc'⟩ := ih (count + 1) ps p htail hps
            exact ⟨oc', List.mem_cons_of_mem _ hmem, hoc'⟩

/-- The loop never collects past the limit: starting strictly below it, a
successful run ends at or below it. -/
theorem yc_loop_length {terms : List (List Char)} {location : Option (List Char)}
    {limit : Int} :
    ∀ (comments : List (Option RawComment)) (count : Nat) (res : List Posting),
      (count : Int) < limit →
      yc_loop terms location limit count comments = .ok res →
      (count : Int) + res.length ≤ limit := by
  intro comments
  induction comments with
  | nil =>
    intro count res hlt h
    simp only [yc_loop, Except.ok.injEq] at h
    subst h
    simpa using hlt.le
  | cons oc rest ih =>
    intro count res hlt h
    simp only [yc_loop] at h
    split at h
    · simp at h
    · exact ih count res hlt h
    · rename_i q heq
      split at h
      · simp only [Except.ok.injEq] at h
        subst h
        simp only [List.length_singleton]
        omega
      · rename_i hge
        split at h
        · simp at h
        · rename_i ps htail
          simp only [Except.ok.injEq] at h
          subst h
          have := ih (count + 1) ps (by push_cast at hge ⊢; omega) htail
          simp only [List.length_cons]
          push_cast at this ⊢
          omega

/-- The id fields of a successful run form a sublist of the id strings
derived from the present input comments, in order. -/
theorem yc_loop_ids_sublist {terms : List (List Char)} {location : Option (List Char)}
    {limit : Int} :
    ∀ (comments : List (Option RawComment)) (count : Nat) (res : List Posting),
      yc_loop terms location limit count comments = .ok res →
      List.Sublist (res.map Posting.id)
        (comments.filterMap (fun oc => oc.map (fun c => postingIdStr c.id))) := by
  intro comments
  induction comments with
  | nil =>
    intro count res h
    simp only [yc_loop, Except.ok.injEq] at h
    subst h
    simp
  | cons oc rest ih =>
    intro count res h
    simp only [yc_loop] at h
    split at h
    · simp at h
    · have hs := ih count res h
      cases oc with
      | none => simpa using hs
      | some c =>
        simp only [List.filterMap_cons, Option.map_some']
        exact hs.cons _
    · rename_i q heq
      obtain ⟨c, ct, hoc, _, _, hq⟩ := processComment_ok_some heq
      subst hoc
      have hqid : q.id = postingIdStr c.id := by
        rw [hq]; rfl
      simp only [List.filterMap_cons, Option.map_some']
      split at h
      · simp only [Except.ok.injEq] at h
        subst h
        simp only [List.map_cons, List.map_nil, hqid]
        exact (List.nil_sublist _).cons₂ _
      · split at h
        · simp at h
        · rename_i ps htail
          simp only [Except.ok.injEq] at h
          subst h
          simp only [List.map_cons, hqid]
          exact (ih (count + 1) ps htail).cons₂ _
example : latest_story_id [⟨"Other".toList, some 3⟩] = some 3 := by decide
example : yc_search_core [some ⟨some "comment".toList, some 5, some "<p>Globex (Remote) Backend roles open</p>".toList, some "jdoe".toList⟩] [] none 50 =
    .ok [{ id := "hn_5".toList, source := "ycombinator".toList,
           title := "Backend roles open".toList, company := "Globex".toList,
           location := "Remote".toList,
           description := "Globex (Remote) Backend roles open".toList,
           url := "https://news.ycombinator.com/item?id=5".toList }] := by decide

/-- Numeric value of a digit character. -/
def charVal (c : Char) : Nat := c.toNat - 48

/-- Decimal reading of a character list. -/
def strVal (l : List Char) : Nat := l.foldl (fun acc c => acc * 10 + charVal c) 0

theorem charVal_digitCh : ∀ d : Nat, d < 10 → charVal (digitCh d) = d := by decide

theorem strVal_append (l : List Char) (c : Char) :
    strVal (l ++ [c]) = strVal l * 10 + charVal c := by
  simp [strVal, List.foldl_append]

theorem strVal_natToStrCore :
    ∀ (fuel n : Nat), n < fuel → strVal (natToStrCore fuel n) = n := by
  intro fuel
  induction fuel with
  | zero => intro n h; omega
  | succ f ih =>
    intro n h
    match n with
    | 0 => simp [natToStrCore, strVal]
    | m + 1 =>
      have hdiv : (m + 1) / 10 < f := by
        have h1 : (m + 1) / 10 < m + 1 := Nat.div_lt_self (by omega) (by omega)
        omega
      simp only [natToStrCore, strVal_append]
      rw [ih _ hdiv, charVal_digitCh _ (Nat.mod_lt _ (by omega))]
      omega

theorem strVal_natToStr (n : Nat) : strVal (natToStr n) = n := by
  by_cases h : n = 0
  · subst h; rfl
  · simp only [natToStr, h, if_false]
    exact strVal_natToStrCore (n + 1) n (by omega)

theorem natToStr_injective : Function.Injective natToStr := by
  intro a b h
  have := congrArg strVal h
  rwa [strVal_natToStr, strVal_natToStr] at this

/-- Every character produced by `natToStrCore` is a digit image. -/
theorem natToStrCore_chars :
    ∀ (fuel n : Nat) (c : Char), c ∈ natToStrCore fuel n → ∃ d, d < 10 ∧ c = digitCh d := by
  intro fuel
  induction fuel with
  | zero => intro n c hc; simp [natToStrCore] at hc
  | succ f ih =>
    intro n c hc
    match n with
    | 0 => simp [natToStrCore] at hc
    | m + 1 =>
      simp only [natToStrCore, List.mem_append, List.mem_singleton] at hc
      rcases hc with hc | hc
      · exact ih _ _ hc
      · exact ⟨(m + 1) % 10, Nat.mod_lt _ (by omega), hc⟩

theorem natToStr_ne_None (n : Nat) : natToStr n ≠ "None".toList := by
  intro h
  by_cases h0 : n = 0
  · subst h0; simp [natToStr] at h
  · have hne : natToStr n ≠ [] := by
      intro habs
      have := strVal_natToStr n
      rw [habs] at this
      simp [strVal] at this
      omega
    simp only [natToStr, h0, if_false] at h hne
    match hmm : natToStrCore (n + 1) n, h with
    | c :: rest, h =>
      have hc : c ∈ natToStrCore (n + 1) n := by rw [hmm]; exact List.mem_cons_self _ _
      obtain ⟨d, hd, hcd⟩ := natToStrCore_chars _ _ _ hc
      have : c = 'N' := by
        have := congrArg (fun l => l.head?) h
        simpa using this
      rw [hcd] at this
      have hforbidden : ∀ d : Nat, d < 10 → digitCh d ≠ 'N' := by decide
      exact hforbidden d hd this

theorem idRepr_injective : Function.Injective idRepr := by
  intro a b h
  match a, b with
  | none, none => rfl
  | some x, some y =>
    simp only [idRepr] at h
    exact congrArg some (natToStr_injective h)
  | some x, none => exact absurd h (natToStr_ne_None x)
  | none, some y => exact absurd h.symm (natToStr_ne_None y)

theorem postingIdStr_injective : Function.Injective postingIdStr := by
  intro a b h
  simp only [postingIdStr, List.append_cancel_left_eq] at h
  exact idRepr_injective h

theorem containsSub_nil : ∀ t : List Char, containsSub [] t = true
  | [] => rfl
  | _ :: rest => by simp [containsSub, leadsWith, containsSub_nil rest]

theorem dropWhile_isWs_all {l : List Char} (h : ∀ c ∈ l, isWs c = true) :
    l.dropWhile isWs = [] := by
  induction l with
  | nil => rfl
  | cons c rest ih =>
    rw [List.dropWhile_cons, if_pos (h c (List.mem_cons_self _ _))]
    exact ih (fun d hd => h d (List.mem_cons_of_mem _ hd))

theorem pyStrip_all_ws {l : List Char} (h : ∀ c ∈ l, isWs c = true) :
    pyStrip l = [] := by
  unfold pyStrip
  rw [dropWhile_isWs_all h]
  rfl

/-- Claim C6: given zero hits from the thread searches, the locator returns
an absent result, and `yc_search` returns an empty sequence without raising
(for every comment list, term list, location and limit). -/
theorem claim6_empty_hits (comments : List (Option RawComment))
    (terms : List (List Char)) (location : Option (List Char)) (limit : Int) :
    latest_story_id [] = none ∧
    yc_search_model [] comments terms location limit = .ok [] :=
  ⟨rfl, rfl⟩

/-- Claim C4 (code bug): a comment whose normalized text starts with `". "`
is not skipped — `_extract_company_and_title` raises an uncaught
`IndexError` (`"".splitlines()[0]`) and the whole search aborts; the
well-formed second comment is never returned. -/
theorem claim4_abort_on_dot_segment :
    yc_search_core
      [some ⟨some "comment".toList, some 1, some ". python dev wanted".toList, none⟩,
       some ⟨some "comment".toList, some 2, some "Acme hiring python devs".toList, none⟩]
      [] none 50 = .error () := by decide

/-- Claim C5: for every comment list, term list, location and positive
limit, a (successful) run of `yc_search` returns at most `limit` postings. -/
theorem claim5_limit_bound (comments : List (Option RawComment))
    (terms : List (List Char)) (location : Option (List Char)) (limit : Int)
    (res : List Posting) (hpos : 1 ≤ limit)
    (hok : yc_search_core comments terms location limit = .ok res) :
    (res.length : Int) ≤ limit := by
  have h := yc_loop_length comments 0 res (by omega) hok
  simpa using h

/-- Witness for C5 at a concrete input: two matching comments, limit 1. -/
theorem claim5_witness :
    (((yc_search_core
        [some ⟨some "comment".toList, some 1, some "python a".toList, none⟩,
         some ⟨some "comment".toList, some 2, some "python b".toList, none⟩]
        [] none 1).toOption.getD []).length : Int) ≤ 1 :=
  claim5_limit_bound
    [some ⟨some "comment".toList, some 1, some "python a".toList, none⟩,
     some ⟨some "comment".toList, some 2, some "python b".toList, none⟩]
    [] none 1 _ (by omega) (by decide)

/-- Claim C9: when `limit` is zero or negative and some comment passes the
type, non-empty-text, term and location filters, a successful run returns
exactly one posting (the limit check runs only after an append), not zero. -/
theorem claim9_nonpositive_limit (comments : List (Option RawComment))
    (terms : List (List Char)) (location : Option (List Char)) (limit : Int)
    (res : List Posting) (hlim : limit ≤ 0)
    (hpass : ∃ oc ∈ comments, passesFilters oc terms location = true)
    (hok : yc_search_core comments terms location limit = .ok res) :
    res.length = 1 := by
  unfold yc_search_core at hok
  have main : ∀ (cs : List (Option RawComment)) (r : List Posting),
      (∃ oc ∈ cs, passesFilters oc terms location = true) →
      yc_loop terms location limit 0 cs = .ok r → r.length = 1 := by
    intro cs
    induction cs with
    | nil =>
      intro r hp _
      simp at hp
    | cons oc rest ih =>
      intro r hp h
      simp only [yc_loop] at h
      split at h
      · simp at h
      · rename_i heq
        rcases hp with ⟨oc', hmem, hpass'⟩
        rcases List.mem_cons.mp hmem with hh | hmem'
        · subst hh
          exact absurd heq (processComment_of_passes hpass')
        · exact ih r ⟨oc', hmem', hpass'⟩ h
      · rw [if_pos (by push_cast; omega)] at h
        simp only [Except.ok.injEq] at h
        simp [← h]
  exact main comments res hpass hok

/-- Witness for C9 at a concrete input: limit 0, one passing comment, one
posting returned. -/
theorem claim9_witness :
    ((yc_search_core
        [none, some ⟨some "comment".toList, some 3, some "python roles".toList, none⟩]
        [] none 0).toOption.getD []).length = 1 :=
  claim9_nonpositive_limit
    [none, some ⟨some "comment".toList, some 3, some "python roles".toList, none⟩]
    [] none 0 _ (by omega)
    ⟨some ⟨some "comment".toList, some 3, some "python roles".toList, none⟩,
     by decide, by decide⟩ (by decide)

/-- Claim C10: a whitespace-only requested location is treated as supplied
but matches every text (its strip-lowercase is empty, a substring of
everything), and it is copied verbatim into the `location` field of every
returned posting. -/
theorem claim10_whitespace_location (l : List Char)
    (comments : List (Option RawComment)) (terms : List (List Char))
    (limit : Int) (res : List Posting)
    (hws : ∀ c ∈ l, isWs c = true) (hne : l ≠ []) :
    (∀ text, matchesLoc text (some l) = true) ∧
    (yc_search_core comments terms (some l) limit = .ok res →
      ∀ p ∈ res, p.location = l) := by
  have hstrip : pyStrip l = [] := pyStrip_all_ws hws
  constructor
  · intro text
    simp only [matchesLoc, if_neg hne, hstrip]
    rw [if_neg (by decide)]
    exact containsSub_nil _
  · intro hok p hp
    obtain ⟨oc, _, hoc⟩ := yc_loop_mem comments 0 res p hok hp
    obtain ⟨c, ct, _, _, _, hpb⟩ := processComment_ok_some hoc
    rw [hpb]
    simp [buildPosting, hne]

/-- Witness for C10 at concrete inputs: location `" "`. -/
theorem claim10_witness :
    matchesLoc ("hello world".toList) (some [' ']) = true ∧
    ({ id := "hn_4".toList, source := "ycombinator".toList,
       title := "ml jobs".toList, company := "Unknown".toList,
       location := [' '], description := "ml jobs".toList,
       url := "https://news.ycombinator.com/item?id=4".toList } : Posting).location
      = [' '] :=
  ⟨(claim10_whitespace_location [' ']
      [some ⟨some "comment".toList, some 4, some "ml jobs".toList, none⟩]
      [] 50 [] (by decide) (by decide)).1 ("hello world".toList),
   (claim10_whitespace_location [' ']
      [some ⟨some "comment".toList, some 4, some "ml jobs".toList, none⟩]
      [] 50 ((yc_search_core
        [some ⟨some "comment".toList, some 4, some "ml jobs".toList, none⟩]
        [] (some [' ']) 50).toOption.getD []) (by decide) (by decide)).2
      (by decide) _ (by decide)⟩

/-- Claim C1 as stated is false: the location `" berlin "` (whitespace
around it) passes the filter (its stripped lowercase occurs in the text)
and is copied verbatim into the posting, but the posting's description does
not contain the requested location string `" berlin "` case-insensitively. -/
theorem claim1_counterexample :
    yc_search_core
        [some ⟨some "comment".toList, some 9, some "berlin office".toList, none⟩]
        [] (some " berlin ".toList) 50 =
      .ok [{ id := "hn_9".toList, source := "ycombinator".toList,
             title := "berlin office".toList, company := "Unknown".toList,
             location := " berlin ".toList,
             description := "berlin office".toList,
             url := "https://news.ycombinator.com/item?id=9".toList }] ∧
    containsSub (lowerStr (" berlin ".toList)) (lowerStr ("berlin office".toList)) = false := by
  exact ⟨by decide, by decide⟩

/-- Claim C1 (amended): in every successful run with a supplied non-empty
location, each returned posting's `location` field equals the supplied
value exactly, and its description is the 800-character truncation of a
normalized comment text that contains, case-insensitively, the literal
"remote" (when the stripped requested location is "remote"
case-insensitively) and otherwise the whitespace-stripped requested
location as a substring.  (The truncated description itself need not
contain the match, and the match is against the stripped location.) -/
theorem claim1_location_override (comments : List (Option RawComment))
    (terms : List (List Char)) (l : List Char) (limit : Int)
    (res : List Posting) (hne : l ≠ [])
    (hok : yc_search_core comments terms (some l) limit = .ok res) :
    ∀ p ∈ res, p.location = l ∧
      ∃ t, p.description = t.take 800 ∧
        (if lowerStr (pyStrip l) = "remote".toList
         then containsSub ("remote".toList) (lowerStr t)
         else containsSub (lowerStr (pyStrip l)) (lowerStr t)) = true := by
  intro p hp
  obtain ⟨oc, _, hoc⟩ := yc_loop_mem comments 0 res p hok hp
  obtain ⟨c, ct, hocs, hext, hml, hpb⟩ := processComment_ok_some hoc
  constructor
  · rw [hpb]
    simp [buildPosting, hne]
  · refine ⟨strip_html (c.text.getD []), ?_, ?_⟩
    · rw [hpb]; rfl
    · simpa [matchesLoc, hne] using hml

/-- Witness for the amended C1 at a concrete input and posting. -/
theorem claim1_witness :
    ({ id := "hn_3".toList, source := "ycombinator".toList,
       title := "Join us in Berlin".toList, company := "Unknown".toList,
       location := "Berlin".toList, description := "Join us in Berlin".toList,
       url := "https://news.ycombinator.com/item?id=3".toList } : Posting).location
        = "Berlin".toList ∧
    ∃ t, ({ id := "hn_3".toList, source := "ycombinator".toList,
            title := "Join us in Berlin".toList, company := "Unknown".toList,
            location := "Berlin".toList, description := "Join us in Berlin".toList,
            url := "https://news.ycombinator.com/item?id=3".toList } : Posting).description
        = t.take 800 ∧
      (if lowerStr (pyStrip ("Berlin".toList)) = "remote".toList
       then containsSub ("remote".toList) (lowerStr t)
       else containsSub (lowerStr (pyStrip ("Berlin".toList))) (lowerStr t)) = true :=
  claim1_location_override
    [some ⟨some "comment".toList, some 3, some "Join us in Berlin".toList, none⟩]
    [] ("Berlin".toList) 50
    ((yc_search_core
        [some ⟨some "comment".toList, some 3, some "Join us in Berlin".toList, none⟩]
        [] (some "Berlin".toList) 50).toOption.getD [])
    (by decide) (by decide) _ (by decide)

/-- Claim C3 as stated is false: two comments sharing the identifier 7 both
pass the filters and yield two postings with the same id `"hn_7"`. -/
theorem claim3_counterexample :
    (((yc_search_core
        [some ⟨some "comment".toList, some 7, some "python one".toList, none⟩,
         some ⟨some "comment".toList, some 7, some "python two".toList, none⟩]
        [] none 50).toOption.getD []).map Posting.id) =
      ["hn_7".toList, "hn_7".toList] ∧
    ¬ (((yc_search_core
        [some ⟨some "comment".toList, some 7, some "python one".toList, none⟩,
         some ⟨some "comment".toList, some 7, some "python two".toList, none⟩]
        [] none 50).toOption.getD []).map Posting.id).Nodup := by
  exact ⟨by decide, by decide⟩

/-- Claim C3 (amended): when the present input comments carry pairwise
distinct identifier values, the id fields of the returned postings are
pairwise distinct within the result set. -/
theorem claim3_distinct_ids (comments : List (Option RawComment))
    (terms : List (List Char)) (location : Option (List Char)) (limit : Int)
    (res : List Posting)
    (hids : (comments.filterMap (fun oc => oc.map RawComment.id)).Nodup)
    (hok : yc_search_core comments terms location limit = .ok res) :
    (res.map Posting.id).Nodup := by
  have hsub := yc_loop_ids_sublist comments 0 res hok
  have hmap : comments.filterMap (fun oc => oc.map (fun c => postingIdStr c.id)) =
      (comments.filterMap (fun oc => oc.map RawComment.id)).map postingIdStr := by
    rw [List.map_filterMap]
    congr 1
    funext oc
    cases oc <;> simp
  rw [hmap] at hsub
  exact (hids.map postingIdStr_injective).sublist hsub

/-- Witness for the amended C3 at a concrete input: distinct ids 1 and 2. -/
theorem claim3_witness :
    (((yc_search_core
        [some ⟨some "comment".toList, some 1, some "python a".toList, none⟩,
         some ⟨some "comment".toList, some 2, some "python b".toList, none⟩]
        [] none 50).toOption.getD []).map Posting.id).Nodup :=
  claim3_distinct_ids
    [some ⟨some "comment".toList, some 1, some "python a".toList, none⟩,
     some ⟨some "comment".toList, some 2, some "python b".toList, none⟩]
    [] none 50 _ (by decide) (by decide)

theorem find?_first {α : Type} (p : α → Bool) :
    ∀ (pre : List α) (x : α) (post : List α),
      (∀ y ∈ pre, p y = false) → p x = true →
      (pre ++ x :: post).find? p = some x := by
  intro pre
  induction pre with
  | nil =>
    intro x post _ hx
    simp [List.find?_cons_of_pos _ hx]
  | cons a rest ih =>
    intro x post hpre hx
    have ha : p a = false := hpre a (List.mem_cons_self _ _)
    rw [List.cons_append, List.find?_cons_of_neg _ (by simp [ha])]
    exact ih x post (fun y hy => hpre y (List.mem_cons_of_mem _ hy)) hx

/-- Claim C7: location extraction returns "Remote" when the lowercased text
contains "remote"; otherwise the canonical label of the first city keyword
in the fixed keyword-list order occurring as a whole word; otherwise the
empty string. -/
theorem claim7_extract_location (text : List Char) :
    (containsSub ("remote".toList) (lowerStr text) = true →
      extract_location text = "Remote".toList) ∧
    (containsSub ("remote".toList) (lowerStr text) = false →
      (∀ pre k p post, cities = pre ++ (k, p) :: post →
        hasWholeWord k (lowerStr text) = true →
        (∀ kp ∈ pre, hasWholeWord kp.1 (lowerStr text) = false) →
        extract_location text = p) ∧
      ((∀ kp ∈ cities, hasWholeWord kp.1 (lowerStr text) = false) →
        extract_location text = [])) := by
  constructor
  · intro h
    simp only [extract_location]
    rw [if_pos h]
  · intro h
    constructor
    · intro pre k p post hsplit hk hpre
      have hfind : cities.find? (fun kp => hasWholeWord kp.1 (lowerStr text)) = some (k, p) := by
        rw [hsplit]
        exact find?_first _ pre (k, p) post (fun y hy => by simpa using hpre y hy) (by simpa using hk)
      simp only [extract_location]
      rw [if_neg (by simp; exact h), hfind]
    · intro hall
      have hfind : cities.find? (fun kp => hasWholeWord kp.1 (lowerStr text)) = none := by
        rw [List.find?_eq_none]
        intro x hx
        simp [hall x hx]
      simp only [extract_location]
      rw [if_neg (by simp; exact h), hfind]

/-- Witness for C7 at a concrete input: "austin" precedes "boston" in the
keyword list, and no earlier keyword matches. -/
theorem claim7_witness :
    extract_location ("Hiring in Austin and Boston".toList) = "Austin".toList :=
  ((claim7_extract_location ("Hiring in Austin and Boston".toList)).2 (by decide)).1
    [("san francisco".toList, "San Francisco".toList),
     ("sf".toList, "San Francisco".toList),
     ("new york".toList, "New York".toList),
     ("nyc".toList, "New York".toList),
     ("seattle".toList, "Seattle".toList)]
    ("austin".toList) ("Austin".toList)
    [("boston".toList, "Boston".toList),
     ("london".toList, "London".toList),
     ("berlin".toList, "Berlin".toList),
     ("toronto".toList, "Toronto".toList)]
    (by decide) (by decide) (by decide)

/-- Modelled from the spec: the comment step of the pipeline "without any
term filtering" — `processComment` with the term-filter step removed,
everything else identical. -/
def processCommentNT (oc : Option RawComment)
    (location : Option (List Char)) : Except Unit (Option Posting) :=
  match oc with
  | none => .ok none
  | some c =>
    if c.typ ≠ some ("comment".toList) then .ok none
    else
      let text := strip_html (c.text.getD [])
      if text = [] then .ok none
      else if matchesLoc text location = false then .ok none
      else
        match extract_company_and_title text with
        | .error e => .error e
        | .ok ct => .ok (some (buildPosting c text location ct.1 ct.2))

/-- Modelled from the spec: the comment loop without term filtering. -/
def yc_loopNT (location : Option (List Char)) (limit : Int) :
    Nat → List (Option RawComment) → Except Unit (List Posting)
  | _, [] => .ok []
  | count, oc :: rest =>
    match processCommentNT oc location with
    | .error e => .error e
    | .ok none => yc_loopNT location limit count rest
    | .ok (some p) =>
      if ((count + 1 : Nat) : Int) ≥ limit then .ok [p]
      else
        match yc_loopNT location limit (count + 1) rest with
        | .error e => .error e
        | .ok ps => .ok (p :: ps)

/-- Modelled from the spec: `yc_search`'s comment processing with the term
filter removed entirely. -/
def yc_search_noTerms (comments : List (Option RawComment))
    (location : Option (List Char)) (limit : Int) : Except Unit (List Posting) :=
  yc_loopNT location limit 0 comments

theorem processComment_empty_terms (oc : Option RawComment)
    (location : Option (List Char)) :
    processComment oc [] location = processCommentNT oc location := by
  cases oc with
  | none => rfl
  | some c => simp [processComment, processCommentNT, matchesTerms]

theorem yc_loop_empty_terms (location : Option (List Char)) (limit : Int) :
    ∀ (comments : List (Option RawComment)) (count : Nat),
      yc_loop [] location limit count comments = yc_loopNT location limit count comments := by
  intro comments
  induction comments with
  | nil => intro count; rfl
  | cons oc rest ih =>
    intro count
    simp only [yc_loop, yc_loopNT, processComment_empty_terms, ih]

/-- Claim C8: with an empty term list the term filter excludes nothing —
`_matches_terms` is constantly true — and `yc_search` returns exactly the
postings of the pipeline with the term filter removed. -/
theorem claim8_empty_terms (text : List Char)
    (comments : List (Option RawComment)) (location : Option (List Char))
    (limit : Int) :
    matchesTerms text [] = true ∧
    yc_search_core comments [] location limit =
      yc_search_noTerms comments location limit :=
  ⟨rfl, yc_loop_empty_terms location limit comments 0⟩

theorem stripTagsF_no_lt :
    ∀ (fuel : Nat) (l : List Char), l.length ≤ fuel → '<' ∉ l →
      stripTagsF fuel l = l := by
  intro fuel
  induction fuel with
  | zero =>
    intro l hlen _
    match l with
    | [] => rfl
  | succ f ih =>
    intro l hlen hmem
    match l with
    | [] => rfl
    | c :: rest =>
      have hc : ¬(c = '<') := fun h => hmem (h ▸ List.mem_cons_self _ _)
      have hrest : '<' ∉ rest := fun h => hmem (List.mem_cons_of_mem _ h)
      simp only [stripTagsF, if_neg hc]
      rw [ih rest (by simpa using Nat.succ_le_succ_iff.mp hlen) hrest]

theorem stripTags_no_lt {l : List Char} (h : '<' ∉ l) : stripTags l = l :=
  stripTagsF_no_lt l.length l le_rfl h

theorem unescapeF_no_amp :
    ∀ (fuel : Nat) (l : List Char), l.length ≤ fuel → '&' ∉ l →
      unescapeF fuel l = l := by
  intro fuel
  induction fuel with
  | zero =>
    intro l hlen _
    match l with
    | [] => rfl
  | succ f ih =>
    intro l hlen hmem
    match l with
    | [] => rfl
    | c :: rest =>
      have hc : ¬(c = '&') := fun h => hmem (h ▸ List.mem_cons_self _ _)
      have hrest : '&' ∉ rest := fun h => hmem (List.mem_cons_of_mem _ h)
      simp only [unescapeF, if_neg hc]
      rw [ih rest (by simpa using Nat.succ_le_succ_iff.mp hlen) hrest]

theorem unescape_no_amp {l : List Char} (h : '&' ∉ l) : unescape l = l :=
  unescapeF_no_amp l.length l le_rfl h

/-- Adjacent characters are not both whitespace. -/
def wsR (a b : Char) : Prop := isWs a = false ∨ isWs b = false

/-- Every whitespace character of the list is a plain space. -/
def wsOkP (l : List Char) : Prop := ∀ c ∈ l, isWs c = true → c = ' '

theorem collapse_wsOk : ∀ (b : Bool) (l : List Char), wsOkP (collapseAux b l) := by
  intro b l
  induction l generalizing b with
  | nil => intro c hc; simp [collapseAux] at hc
  | cons a rest ih =>
    intro c hc hw
    by_cases ha : isWs a = true
    · cases b with
      | true =>
        simp only [collapseAux, if_pos ha] at hc
        exact ih true c hc hw
      | false =>
        simp only [collapseAux, if_pos ha] at hc
        rcases List.mem_cons.mp hc with h | h
        · exact h
        · exact ih true c h hw
    · simp only [collapseAux, if_neg ha] at hc
      rcases List.mem_cons.mp hc with h | h
      · subst h; exact absurd hw ha
      · exact ih false c h hw

theorem collapse_head_not_ws :
    ∀ (l : List Char) (c : Char) (r : List Char),
      collapseAux true l = c :: r → isWs c = false := by
  intro l
  induction l with
  | nil => intro c r h; simp [collapseAux] at h
  | cons a rest ih =>
    intro c r h
    by_cases ha : isWs a = true
    · simp only [collapseAux, if_pos ha] at h
      exact ih c r h
    · simp only [collapseAux, if_neg ha] at h
      injection h with h1 _
      subst h1
      simpa using ha

theorem collapse_chain : ∀ (b : Bool) (l : List Char), List.Chain' wsR (collapseAux b l) := by
  intro b l
  induction l generalizing b with
  | nil => simp [collapseAux]
  | cons a rest ih =>
    by_cases ha : isWs a = true
    · cases b with
      | true =>
        simp only [collapseAux, if_pos ha, if_true]
        exact ih true
      | false =>
        simp only [collapseAux, if_pos ha]
        rw [if_neg Bool.false_ne_true]
        rw [List.chain'_cons']
        refine ⟨?_, ih true⟩
        intro d hd
        right
        match hh : collapseAux true rest with
        | [] => rw [hh] at hd; simp at hd
        | e :: r0 =>
          rw [hh] at hd
          simp only [List.head?_cons, Option.mem_def, Option.some.injEq] at hd
          subst hd
          exact collapse_head_not_ws rest e r0 hh
    · simp only [collapseAux, if_neg ha]
      rw [List.chain'_cons']
      refine ⟨?_, ih false⟩
      intro d _
      left
      simpa using ha

theorem collapse_fix_aux :
    ∀ l : List Char, wsOkP l → List.Chain' wsR l →
      collapseAux false l = l ∧
      (∀ (c : Char) (r : List Char), l = c :: r → isWs c = false →
        collapseAux true l = l) := by
  intro l
  induction l with
  | nil => exact fun _ _ => ⟨rfl, fun c r h _ => by simp at h⟩
  | cons a rest ih =>
    intro hws hch
    have hws' : wsOkP rest := fun c hc => hws c (List.mem_cons_of_mem _ hc)
    have hch' : List.Chain' wsR rest := (List.chain'_cons'.mp hch).2
    have hhead := (List.chain'_cons'.mp hch).1
    obtain ⟨ihf, iht⟩ := ih hws' hch'
    by_cases ha : isWs a = true
    · have haSp : a = ' ' := hws a (List.mem_cons_self _ _) ha
      have htail : collapseAux true rest = rest := by
        match hr : rest with
        | [] => rfl
        | d :: r0 =>
          have hd : isWs d = false := by
            have := hhead d (by simp)
            rcases this with h | h
            · rw [ha] at h; simp at h
            · exact h
          exact iht d r0 rfl hd
      constructor
      · simp only [collapseAux, if_pos ha]
        rw [if_neg Bool.false_ne_true, htail, haSp]
      · intro c r hcr hc
        injection hcr with h1 _
        subst h1
        simp [ha] at hc
    · constructor
      · simp only [collapseAux, if_neg ha, ihf]
      · intro c r hcr hc
        simp only [collapseAux, if_neg ha, ihf]

theorem mem_collapse : ∀ (b : Bool) (l : List Char) (c : Char),
    c ∈ collapseAux b l → c ∈ l ∨ c = ' ' := by
  intro b l
  induction l generalizing b with
  | nil => intro c hc; simp [collapseAux] at hc
  | cons a rest ih =>
    intro c hc
    by_cases ha : isWs a = true
    · cases b with
      | true =>
        simp only [collapseAux, if_pos ha, if_true] at hc
        rcases ih true c hc with h | h
        · exact Or.inl (List.mem_cons_of_mem _ h)
        · exact Or.inr h
      | false =>
        simp only [collapseAux, if_pos ha] at hc
        rw [if_neg Bool.false_ne_true] at hc
        rcases List.mem_cons.mp hc with h | h
        · exact Or.inr h
        · rcases ih true c h with h' | h'
          · exact Or.inl (List.mem_cons_of_mem _ h')
          · exact Or.inr h'
    · simp only [collapseAux, if_neg ha] at hc
      rcases List.mem_cons.mp hc with h | h
      · exact Or.inl (h ▸ List.mem_cons_self _ _)
      · rcases ih false c h with h' | h'
        · exact Or.inl (List.mem_cons_of_mem _ h')
        · exact Or.inr h'

theorem mem_stripEnd : ∀ (l : List Char) (c : Char), c ∈ stripEnd l → c ∈ l := by
  intro l
  induction l with
  | nil => intro c hc; simp [stripEnd] at hc
  | cons a rest ih =>
    intro c hc
    simp only [stripEnd] at hc
    match hr : stripEnd rest with
    | [] =>
      rw [hr] at hc
      by_cases ha : isWs a = true
      · rw [if_pos ha] at hc; simp at hc
      · rw [if_neg ha] at hc
        simp only [List.mem_singleton] at hc
        exact hc ▸ List.mem_cons_self _ _
    | d :: r0 =>
      rw [hr] at hc
      rcases List.mem_cons.mp hc with h | h
      · exact h ▸ List.mem_cons_self _ _
      · exact List.mem_cons_of_mem _ (ih c (hr ▸ h))

theorem mem_dropWhile : ∀ (l : List Char) (c : Char),
    c ∈ l.dropWhile isWs → c ∈ l := by
  intro l
  induction l with
  | nil => intro c hc; simp at hc
  | cons a rest ih =>
    intro c hc
    rw [List.dropWhile_cons] at hc
    by_cases ha : isWs a = true
    · rw [if_pos ha] at hc
      exact List.mem_cons_of_mem _ (ih c hc)
    · rw [if_neg ha] at hc
      exact hc

/-- A non-empty `stripEnd` keeps the head of the list and strips its tail. -/
theorem stripEnd_cases : ∀ (l : List Char) (c : Char) (r : List Char),
    stripEnd l = c :: r → ∃ t, l = c :: t ∧ stripEnd t = r := by
  intro l
  match l with
  | [] => intro c r h; simp [stripEnd] at h
  | a :: rest =>
    intro c r h
    simp only [stripEnd] at h
    match hr : stripEnd rest with
    | [] =>
      rw [hr] at h
      by_cases ha : isWs a = true
      · rw [if_pos ha] at h; simp at h
      · rw [if_neg ha] at h
        injection h with h1 h2
        exact ⟨rest, by rw [h1], by rw [hr, ← h2]⟩
    | d :: r0 =>
      rw [hr] at h
      injection h with h1 h2
      exact ⟨rest, by rw [h1], by rw [hr, h2]⟩

theorem chain'_stripEnd {R : Char → Char → Prop} :
    ∀ l : List Char, List.Chain' R l → List.Chain' R (stripEnd l) := by
  intro l
  induction l with
  | nil => intro _; simp [stripEnd]
  | cons a rest ih =>
    intro h
    simp only [stripEnd]
    match hr : stripEnd rest with
    | [] =>
      by_cases ha : isWs a = true
      · rw [if_pos ha]; simp
      · rw [if_neg ha]; simp
    | d :: r0 =>
      obtain ⟨t, ht, -⟩ := stripEnd_cases rest d r0 hr
      have hchain : List.Chain' R (d :: r0) := hr ▸ ih (List.chain'_cons'.mp h).2
      rw [List.chain'_cons']
      refine ⟨?_, hchain⟩
      intro y hy
      simp only [List.head?_cons, Option.mem_def, Option.some.injEq] at hy
      subst hy
      have := (List.chain'_cons'.mp h).1
      exact this d (by rw [ht]; simp)

/-- If-characterization of the `stripEnd` recursion step. -/
theorem stripEnd_cons (a : Char) (rest : List Char) :
    stripEnd (a :: rest) =
      if stripEnd rest = [] then (if isWs a = true then [] else [a])
      else a :: stripEnd rest := by
  simp only [stripEnd]
  match hr : stripEnd rest with
  | [] => simp
  | d :: r0 => simp

theorem stripEnd_idem : ∀ l : List Char, stripEnd (stripEnd l) = stripEnd l := by
  intro l
  induction l with
  | nil => rfl
  | cons a rest ih =>
    rw [stripEnd_cons]
    by_cases hr : stripEnd rest = []
    · rw [if_pos hr]
      by_cases ha : isWs a = true
      · rw [if_pos ha]; rfl
      · rw [if_neg ha, stripEnd_cons]
        rw [if_pos (show stripEnd [] = [] from rfl), if_neg ha]
    · rw [if_neg hr, stripEnd_cons, ih, if_neg hr]

theorem dropWhile_head_not_ws : ∀ (l : List Char) (c : Char) (r : List Char),
    l.dropWhile isWs = c :: r → isWs c = false := by
  intro l
  induction l with
  | nil => intro c r h; simp at h
  | cons a rest ih =>
    intro c r h
    rw [List.dropWhile_cons] at h
    by_cases ha : isWs a = true
    · rw [if_pos ha] at h
      exact ih c r h
    · rw [if_neg ha] at h
      injection h with h1 _
      subst h1
      simpa using ha

theorem chain'_dropWhile {R : Char → Char → Prop} :
    ∀ l : List Char, List.Chain' R l → List.Chain' R (l.dropWhile isWs) := by
  intro l
  induction l with
  | nil => intro _; simp
  | cons a rest ih =>
    intro h
    rw [List.dropWhile_cons]
    by_cases ha : isWs a = true
    · rw [if_pos ha]
      exact ih (List.chain'_cons'.mp h).2
    · rw [if_neg ha]
      exact h

theorem collapse_fix {l : List Char} (hws : wsOkP l) (hch : List.Chain' wsR l) :
    collapseWs l = l := (collapse_fix_aux l hws hch).1

/-- `pyStrip (collapseWs x)` is a fixed point of both `collapseWs` and
`pyStrip`: its whitespace is single interior spaces and its ends are
non-whitespace. -/
theorem collapse_pyStrip_fix (x : List Char) :
    collapseWs (pyStrip (collapseWs x)) = pyStrip (collapseWs x) ∧
    pyStrip (pyStrip (collapseWs x)) = pyStrip (collapseWs x) := by
  have hwsY : wsOkP (collapseWs x) := collapse_wsOk false x
  have hchY : List.Chain' wsR (collapseWs x) := collapse_chain false x
  have hwsW : wsOkP ((collapseWs x).dropWhile isWs) :=
    fun c hc hw => hwsY c (mem_dropWhile _ c hc) hw
  have hchW : List.Chain' wsR ((collapseWs x).dropWhile isWs) :=
    chain'_dropWhile _ hchY
  have hwsZ : wsOkP (pyStrip (collapseWs x)) :=
    fun c hc hw => hwsW c (mem_stripEnd _ c hc) hw
  have hchZ : List.Chain' wsR (pyStrip (collapseWs x)) :=
    chain'_stripEnd _ hchW
  have hdropZ : (pyStrip (collapseWs x)).dropWhile isWs = pyStrip (collapseWs x) := by
    match hz : pyStrip (collapseWs x) with
    | [] => rfl
    | c :: r =>
      obtain ⟨t, ht, -⟩ := stripEnd_cases _ c r hz
      have hc : isWs c = false := dropWhile_head_not_ws (collapseWs x) c t ht
      rw [List.dropWhile_cons, if_neg (by simp [hc])]
  have hseZ : stripEnd (pyStrip (collapseWs x)) = pyStrip (collapseWs x) :=
    stripEnd_idem _
  refine ⟨collapse_fix hwsZ hchZ, ?_⟩
  unfold pyStrip
  rw [show (stripEnd ((collapseWs x).dropWhile isWs)).dropWhile isWs =
        (pyStrip (collapseWs x)).dropWhile isWs from rfl, hdropZ]
  exact hseZ

theorem strip_html_clean {x : List Char} (h1 : '<' ∉ x) (h2 : '&' ∉ x) :
    strip_html x = pyStrip (collapseWs x) := by
  unfold strip_html
  rw [stripTags_no_lt h1, unescape_no_amp h2]

theorem not_mem_pyStrip_collapse {x : List Char} {c : Char}
    (hx : c ∉ x) (hsp : c ≠ ' ') : c ∉ pyStrip (collapseWs x) := by
  intro hc
  have h1 := mem_stripEnd _ c hc
  have h2 := mem_dropWhile _ c h1
  rcases mem_collapse false x c h2 with h | h
  · exact hx h
  · exact hsp h

/-- Claim C2 as stated is false: the normalizer is not idempotent.  On
`"&lt;b&gt;"` one pass yields `"<b>"` (entity decoding happens after tag
stripping), and a second pass removes the freshly decoded tag, yielding the
empty string. -/
theorem claim2_counterexample :
    ¬ (strip_html (strip_html ("&lt;b&gt;".toList)) =
        strip_html ("&lt;b&gt;".toList)) := by decide

/-- Claim C2 (amended): the normalizer is idempotent on inputs containing
no `<` and no `&` characters (no markup tags and no entity references):
`normalize(normalize(x)) == normalize(x)` for every such `x`. -/
theorem claim2_idempotent_on_clean (x : List Char)
    (h1 : '<' ∉ x) (h2 : '&' ∉ x) :
    strip_html (strip_html x) = strip_html x := by
  have e1 : strip_html x = pyStrip (collapseWs x) := strip_html_clean h1 h2
  have hz1 : '<' ∉ pyStrip (collapseWs x) :=
    not_mem_pyStrip_collapse h1 (by decide)
  have hz2 : '&' ∉ pyStrip (collapseWs x) :=
    not_mem_pyStrip_collapse h2 (by decide)
  obtain ⟨hcz, hpz⟩ := collapse_pyStrip_fix x
  rw [e1, strip_html_clean hz1 hz2, hcz, hpz]

/-- Witness for the amended C2 at a concrete input. -/
theorem claim2_witness :
    strip_html (strip_html ("  hello   world ".toList)) =
      strip_html ("  hello   world ".toList) :=
  claim2_idempotent_on_clean ("  hello   world ".toList) (by decide) (by decide)
